import Mathlib

/-!
Verification of the EMI amortization core (`src/utils/calculator.ts`).

The two source functions `calculateEMI` and `generateAmortizationSchedule`
work on JavaScript numbers; the embedding below works over exact rationals
(`ℚ`), translating each arithmetic step of the source literally.  The
schedule loop `for (let month = 1; month <= tenureInMonths && remainingBalance
> 0.01; month++)` becomes a structurally recursive function `go` with fuel
`tenureInMonths.toNat`.  The sparse prepayment map (`prepayments[month] || 0`)
becomes a total function `ℕ → ℚ` that is `0` on absent months.
-/

/-- One row of the amortization ledger (`AmortizationData` in `src/types`). -/
structure AmortizationData where
  month : ℕ
  openingBalance : ℚ
  interest : ℚ
  principal : ℚ
  prepayment : ℚ
  totalPayment : ℚ
  closingBalance : ℚ
  deriving DecidableEq, Repr

/-- The sparse prepayment map, as a total function (absent month ↦ 0). -/
abbrev Prepayments := ℕ → ℚ

/-- `calculateEMI` from `src/utils/calculator.ts`, literally:
guard for non-positive principal/tenure, zero-rate straight line,
otherwise the annuity formula with monthly rate `annualRate / 12 / 100`. -/
def calculateEMI (principal annualRate : ℚ) (tenureInMonths : ℤ) : ℚ :=
  if principal ≤ 0 ∨ tenureInMonths ≤ 0 then 0
  else if annualRate ≤ 0 then principal / (tenureInMonths : ℚ)
  else
    let monthlyRate := annualRate / 12 / 100
    principal * monthlyRate * (1 + monthlyRate) ^ tenureInMonths /
      ((1 + monthlyRate) ^ tenureInMonths - 1)

/-- The body of the schedule loop in `generateAmortizationSchedule`:
interest, scheduled principal (min with balance, clamped at 0), prepayment
lookup, tentative closing balance, prepayment clamp when the balance would
go negative, and the defensive `Math.max(0, ·)` on every pushed field. -/
def makeRow (baseEMI monthlyRate : ℚ) (month : ℕ) (openingBalance prepayment : ℚ) :
    AmortizationData :=
  let interest := openingBalance * monthlyRate
  let principalPaid0 := min (baseEMI - interest) openingBalance
  let principalPaid := if principalPaid0 < 0 then 0 else principalPaid0
  let closingBalance0 := openingBalance - principalPaid - prepayment
  let actualPrepayment := if closingBalance0 < 0 then prepayment + closingBalance0 else prepayment
  let closingBalance := if closingBalance0 < 0 then 0 else closingBalance0
  let totalPayment := interest + principalPaid + actualPrepayment
  { month := month
    openingBalance := openingBalance
    interest := max 0 interest
    principal := max 0 principalPaid
    prepayment := max 0 actualPrepayment
    totalPayment := max 0 totalPayment
    closingBalance := max 0 closingBalance }

/-- The schedule loop: one iteration per month while fuel remains
(`month ≤ tenureInMonths`) and `remainingBalance > 0.01`. -/
def go (baseEMI monthlyRate : ℚ) (prepayments : Prepayments) :
    ℕ → ℕ → ℚ → List AmortizationData
  | 0, _, _ => []
  | fuel + 1, month, remainingBalance =>
    if remainingBalance > 1 / 100 then
      let row := makeRow baseEMI monthlyRate month remainingBalance (prepayments month)
      row :: go baseEMI monthlyRate prepayments fuel (month + 1) row.closingBalance
    else []

/-- `generateAmortizationSchedule` from `src/utils/calculator.ts`. -/
def generateAmortizationSchedule (principal annualRate : ℚ) (tenureInMonths : ℤ)
    (prepayments : Prepayments) : List AmortizationData :=
  if principal ≤ 0 ∨ tenureInMonths ≤ 0 then []
  else
    let monthlyRate := if annualRate > 0 then annualRate / 12 / 100 else 0
    let baseEMI := calculateEMI principal annualRate tenureInMonths
    go baseEMI monthlyRate prepayments tenureInMonths.toNat 1 principal

/-- The installment contract as the specification words it (§4.1): zero/negative
rate gives straight-line `principal / tenureMonths`, positive rate gives the
annuity payment with `r = annualRatePercent / 12 / 100`. -/
def computeInstallment_spec (principal annualRatePercent : ℚ) (tenureMonths : ℤ) : ℚ :=
  if annualRatePercent ≤ 0 then principal / (tenureMonths : ℚ)
  else
    let r := annualRatePercent / 12 / 100
    principal * r * (1 + r) ^ tenureMonths / ((1 + r) ^ tenureMonths - 1)

/-- The empty prepayment map. -/
def noPrepayments : Prepayments := fun _ => 0

/-- The scheduled principal portion the loop computes for an opening balance
`b`: `min(baseEMI − interest, b)` clamped below at 0. -/
def sPrincipal (baseEMI monthlyRate b : ℚ) : ℚ := max 0 (min (baseEMI - b * monthlyRate) b)

/-- The tentative closing balance before the prepayment clamp. -/
def tentClosing (baseEMI monthlyRate b p : ℚ) : ℚ := b - sPrincipal baseEMI monthlyRate b - p

/-- The remaining balance when the loop exits: the last row's closing balance,
or the starting balance when no row was produced. -/
def finalClosing : List AmortizationData → ℚ → ℚ
  | [], d => d
  | row :: rest, _ => finalClosing rest row.closingBalance

/-- The exact annuity recurrence: the balance after `k` further months when
every month pays the full baseline EMI (interest plus principal), with no
clamping and no prepayment. -/
def ideal (emi r : ℚ) : ℕ → ℚ → ℚ
  | 0, b => b
  | k + 1, b => ideal emi r k ((1 + r) * b - emi)

/-- The first row of the 4-month zero-rate example schedule. -/
def row1000 : AmortizationData :=
  { month := 1, openingBalance := 1000, interest := 0, principal := 250,
    prepayment := 0, totalPayment := 250, closingBalance := 750 }

/-- A prepayment map asking for 2000 in month 1 (more than the balance). -/
def ppClamp : Prepayments := fun m => if m = 1 then 2000 else 0

/-- The single row of the schedule with the oversized month-1 prepayment. -/
def rowClamp : AmortizationData :=
  { month := 1, openingBalance := 1000, interest := 0, principal := 250,
    prepayment := 750, totalPayment := 1000, closingBalance := 0 }

/-- C3: for positive principal and tenure, `calculateEMI` computes exactly the
formula the specification prescribes: `principal / tenureMonths` when the rate
is ≤ 0, and the annuity payment `P·r·(1+r)^n / ((1+r)^n − 1)` with
`r = annualRatePercent / 12 / 100` otherwise. -/
theorem calculateEMI_matches_spec (principal annualRate : ℚ) (tenureInMonths : ℤ)
    (hP : 0 < principal) (hn : 0 < tenureInMonths) :
    calculateEMI principal annualRate tenureInMonths =
      computeInstallment_spec principal annualRate tenureInMonths := by
  unfold calculateEMI computeInstallment_spec
  rw [if_neg (by push_neg; exact ⟨hP, hn⟩)]

theorem calculateEMI_matches_spec_witness :
    (0 : ℚ) < 1000 ∧ (0 : ℤ) < 12 ∧
      calculateEMI 1000 (17 / 2) 12 = computeInstallment_spec 1000 (17 / 2) 12 :=
  ⟨by norm_num, by norm_num,
    calculateEMI_matches_spec 1000 (17 / 2) 12 (by norm_num) (by norm_num)⟩

/-- C8: for non-positive principal or tenure, `calculateEMI` returns 0 and
`generateAmortizationSchedule` returns the empty schedule, for every rate and
every prepayment map (both functions are total, so no error is possible). -/
theorem degenerate_inputs_give_empty (principal annualRate : ℚ) (tenureInMonths : ℤ)
    (prepayments : Prepayments) (h : principal ≤ 0 ∨ tenureInMonths ≤ 0) :
    calculateEMI principal annualRate tenureInMonths = 0 ∧
      generateAmortizationSchedule principal annualRate tenureInMonths prepayments = [] := by
  constructor
  · unfold calculateEMI
    rw [if_pos h]
  · unfold generateAmortizationSchedule
    rw [if_pos h]

theorem degenerate_inputs_give_empty_witness :
    calculateEMI 0 (17 / 2) 240 = 0 ∧
      generateAmortizationSchedule 0 (17 / 2) 240 noPrepayments = [] :=
  degenerate_inputs_give_empty 0 (17 / 2) 240 noPrepayments (Or.inl le_rfl)

/-- C9: a negative annual rate is treated exactly like a zero rate: both
`calculateEMI` and `generateAmortizationSchedule` return the same results as
with rate 0, for all other arguments. -/
theorem negative_rate_equals_zero_rate (principal annualRate : ℚ) (tenureInMonths : ℤ)
    (prepayments : Prepayments) (hneg : annualRate < 0) :
    calculateEMI principal annualRate tenureInMonths =
        calculateEMI principal 0 tenureInMonths ∧
      generateAmortizationSchedule principal annualRate tenureInMonths prepayments =
        generateAmortizationSchedule principal 0 tenureInMonths prepayments := by
  have hle : annualRate ≤ 0 := le_of_lt hneg
  have hngt : ¬ annualRate > 0 := not_lt.mpr hle
  have hEMI : calculateEMI principal annualRate tenureInMonths =
      calculateEMI principal 0 tenureInMonths := by
    unfold calculateEMI
    rw [if_pos hle, if_pos (le_refl (0 : ℚ))]
  refine ⟨hEMI, ?_⟩
  unfold generateAmortizationSchedule
  rw [if_neg hngt, if_neg (lt_irrefl (0 : ℚ)), hEMI]

theorem negative_rate_equals_zero_rate_witness :
    calculateEMI 1000 (-5) 12 = calculateEMI 1000 0 12 ∧
      generateAmortizationSchedule 1000 (-5) 12 noPrepayments =
        generateAmortizationSchedule 1000 0 12 noPrepayments :=
  negative_rate_equals_zero_rate 1000 (-5) 12 noPrepayments (by norm_num)

/-! ### Row-level facts about the loop body -/

theorem makeRow_month (emi r : ℚ) (m : ℕ) (b p : ℚ) : (makeRow emi r m b p).month = m := rfl

theorem makeRow_openingBalance (emi r : ℚ) (m : ℕ) (b p : ℚ) :
    (makeRow emi r m b p).openingBalance = b := rfl

theorem makeRow_interest (emi r : ℚ) (m : ℕ) (b p : ℚ) :
    (makeRow emi r m b p).interest = max 0 (b * r) := rfl

theorem makeRow_principal (emi r : ℚ) (m : ℕ) (b p : ℚ) :
    (makeRow emi r m b p).principal = sPrincipal emi r b := by
  unfold makeRow sPrincipal
  simp only [max_def, min_def]
  split_ifs <;> linarith

theorem makeRow_prepayment (emi r : ℚ) (m : ℕ) (b p : ℚ) :
    (makeRow emi r m b p).prepayment = max 0 (p + min 0 (tentClosing emi r b p)) := by
  unfold makeRow tentClosing sPrincipal
  simp only [max_def, min_def]
  split_ifs <;> linarith

theorem makeRow_closingBalance (emi r : ℚ) (m : ℕ) (b p : ℚ) :
    (makeRow emi r m b p).closingBalance = max 0 (tentClosing emi r b p) := by
  unfold makeRow tentClosing sPrincipal
  simp only [max_def, min_def]
  split_ifs <;> linarith

theorem sPrincipal_nonneg (emi r b : ℚ) : 0 ≤ sPrincipal emi r b := le_max_left _ _

theorem sPrincipal_le (emi r b : ℚ) (hb : 0 ≤ b) : sPrincipal emi r b ≤ b :=
  max_le hb (min_le_right _ _)

theorem makeRow_closing_nonneg (emi r : ℚ) (m : ℕ) (b p : ℚ) :
    0 ≤ (makeRow emi r m b p).closingBalance := by
  rw [makeRow_closingBalance]; exact le_max_left _ _

theorem makeRow_closing_le (emi r : ℚ) (m : ℕ) (b p : ℚ) (hb : 0 ≤ b) (hp : 0 ≤ p) :
    (makeRow emi r m b p).closingBalance ≤ b := by
  rw [makeRow_closingBalance]
  have h1 := sPrincipal_nonneg emi r b
  unfold tentClosing
  exact max_le hb (by linarith)

theorem makeRow_identity (emi r : ℚ) (m : ℕ) (b p : ℚ) (hb : 0 ≤ b) (hp : 0 ≤ p) :
    (makeRow emi r m b p).closingBalance =
      b - (makeRow emi r m b p).principal - (makeRow emi r m b p).prepayment := by
  rw [makeRow_principal, makeRow_prepayment, makeRow_closingBalance]
  have h1 : sPrincipal emi r b ≤ b := sPrincipal_le emi r b hb
  unfold tentClosing
  rcases le_or_lt 0 (b - sPrincipal emi r b - p) with h | h
  · rw [max_eq_right h, min_eq_left h, add_zero, max_eq_right hp]
  · rw [max_eq_left h.le, min_eq_right h.le, max_eq_right (by linarith)]
    ring

theorem makeRow_prepayment_le (emi r : ℚ) (m : ℕ) (b p : ℚ) (hp : 0 ≤ p) :
    (makeRow emi r m b p).prepayment ≤ p := by
  rw [makeRow_prepayment]
  exact max_le hp (by linarith [min_le_left 0 (tentClosing emi r b p)])

theorem makeRow_clamp (emi r : ℚ) (m : ℕ) (b p : ℚ) (hb : 0 ≤ b)
    (hgt : b - (makeRow emi r m b p).principal < p) :
    (makeRow emi r m b p).closingBalance = 0 ∧
      (makeRow emi r m b p).prepayment = b - (makeRow emi r m b p).principal := by
  rw [makeRow_principal] at hgt ⊢
  rw [makeRow_prepayment, makeRow_closingBalance]
  have h1 : sPrincipal emi r b ≤ b := sPrincipal_le emi r b hb
  have htc : tentClosing emi r b p < 0 := by unfold tentClosing; linarith
  constructor
  · rw [max_eq_left htc.le]
  · rw [min_eq_right htc.le]
    unfold tentClosing
    rw [max_eq_right (by linarith)]
    ring

/-! ### Loop lemmas -/

theorem go_length_le (emi r : ℚ) (pp : Prepayments) :
    ∀ fuel m bal, (go emi r pp fuel m bal).length ≤ fuel := by
  intro fuel
  induction fuel with
  | zero => intro m bal; simp [go]
  | succ k ih =>
    intro m bal
    simp only [go]
    split_ifs with hc
    · simpa using Nat.succ_le_succ (ih (m + 1) _)
    · simp

theorem mem_go (emi r : ℚ) (pp : Prepayments) (hp : ∀ m, 0 ≤ pp m) :
    ∀ fuel m bal row, row ∈ go emi r pp fuel m bal →
      ∃ k b, 1 / 100 < b ∧ b ≤ bal ∧ row = makeRow emi r k b (pp k) := by
  intro fuel
  induction fuel with
  | zero => intro m bal row h; simp [go] at h
  | succ f ih =>
    intro m bal row h
    simp only [go] at h
    split_ifs at h with hc
    · rcases List.mem_cons.mp h with h | h
      · exact ⟨m, bal, hc, le_rfl, h⟩
      · obtain ⟨k, b, hb, hle, rfl⟩ := ih (m + 1) _ row h
        have hcl : (makeRow emi r m bal (pp m)).closingBalance ≤ bal :=
          makeRow_closing_le emi r m bal (pp m) (by linarith) (hp m)
        exact ⟨k, b, hb, le_trans hle hcl, rfl⟩
    · simp at h

theorem go_head_opening (emi r : ℚ) (pp : Prepayments) :
    ∀ fuel m bal row, (go emi r pp fuel m bal).head? = some row → row.openingBalance = bal := by
  intro fuel m bal row h
  cases fuel with
  | zero => simp [go] at h
  | succ f =>
    simp only [go] at h
    split_ifs at h with hc
    · simp only [List.head?_cons, Option.some.injEq] at h
      rw [← h, makeRow_openingBalance]
    · simp at h

theorem go_chain (emi r : ℚ) (pp : Prepayments) :
    ∀ fuel m bal,
      List.Chain' (fun x y => x.closingBalance = y.openingBalance) (go emi r pp fuel m bal) := by
  intro fuel
  induction fuel with
  | zero => intro m bal; simp [go]
  | succ f ih =>
    intro m bal
    simp only [go]
    split_ifs with hc
    · refine List.chain'_cons'.mpr ⟨?_, ih (m + 1) _⟩
      intro y hy
      exact (go_head_opening emi r pp f (m + 1) _ y hy).symm
    · simp

/-- The schedule generator unfolded past its input guard. -/
theorem generate_eq_go (P a : ℚ) (n : ℤ) (pp : Prepayments) (hP : 0 < P) (hn : 0 < n) :
    generateAmortizationSchedule P a n pp =
      go (calculateEMI P a n) (if a > 0 then a / 12 / 100 else 0) pp n.toNat 1 P := by
  unfold generateAmortizationSchedule
  rw [if_neg (by push_neg; exact ⟨hP, hn⟩)]

theorem monthlyRate_nonneg (a : ℚ) : 0 ≤ (if a > 0 then a / 12 / 100 else 0) := by
  split_ifs with h
  · positivity
  · exact le_rfl

/-! ### Concrete evaluations shared by witnesses -/

/-- A 4-month zero-rate schedule, fully evaluated. -/
theorem schedule_1000_eval : generateAmortizationSchedule 1000 0 4 noPrepayments =
    [ { month := 1, openingBalance := 1000, interest := 0, principal := 250,
        prepayment := 0, totalPayment := 250, closingBalance := 750 },
      { month := 2, openingBalance := 750, interest := 0, principal := 250,
        prepayment := 0, totalPayment := 250, closingBalance := 500 },
      { month := 3, openingBalance := 500, interest := 0, principal := 250,
        prepayment := 0, totalPayment := 250, closingBalance := 250 },
      { month := 4, openingBalance := 250, interest := 0, principal := 250,
        prepayment := 0, totalPayment := 250, closingBalance := 0 } ] := by
  norm_num [generateAmortizationSchedule, go, makeRow, calculateEMI, noPrepayments]

/-- The oversized month-1 prepayment is clamped and the schedule stops after
one row. -/
theorem schedule_clamp_eval : generateAmortizationSchedule 1000 0 4 ppClamp =
    [{ month := 1, openingBalance := 1000, interest := 0, principal := 250,
       prepayment := 750, totalPayment := 1000, closingBalance := 0 }] := by
  norm_num [generateAmortizationSchedule, go, makeRow, calculateEMI, ppClamp]

/-! ### The claims about individual rows -/

/-- C1: in any schedule generated from a prepayment map with non-negative
values, every row satisfies
`closingBalance = openingBalance − principal − prepayment` exactly on the
recorded (possibly clamped) fields, and `closingBalance ≥ 0`. -/
theorem schedule_row_invariant (P a : ℚ) (n : ℤ) (pp : Prepayments)
    (hpp : ∀ m, 0 ≤ pp m) :
    ∀ row ∈ generateAmortizationSchedule P a n pp,
      row.closingBalance = row.openingBalance - row.principal - row.prepayment ∧
        0 ≤ row.closingBalance := by
  intro row hrow
  by_cases hg : P ≤ 0 ∨ n ≤ 0
  · rw [(degenerate_inputs_give_empty P a n pp hg).2] at hrow
    simp at hrow
  · push_neg at hg
    rw [generate_eq_go P a n pp hg.1 hg.2] at hrow
    obtain ⟨k, b, hb, hle, rfl⟩ := mem_go _ _ pp hpp _ _ _ row hrow
    have hb0 : (0 : ℚ) ≤ b := by linarith
    refine ⟨?_, makeRow_closing_nonneg _ _ _ _ _⟩
    rw [makeRow_openingBalance]
    exact makeRow_identity _ _ k b (pp k) hb0 (hpp k)

theorem schedule_row_invariant_witness :
    row1000.closingBalance = row1000.openingBalance - row1000.principal - row1000.prepayment ∧
      0 ≤ row1000.closingBalance :=
  schedule_row_invariant 1000 0 4 noPrepayments (fun _ => le_rfl) row1000
    (by rw [schedule_1000_eval]; exact List.mem_cons_self _ _)

/-- C4: in any schedule generated from a prepayment map with non-negative
values, the recorded prepayment of a row never exceeds the requested
prepayment for that month, and whenever the requested prepayment exceeds what
remains of the balance after the scheduled principal, it is reduced by exactly
the shortfall: the recorded prepayment is `openingBalance − principal` and the
closing balance is exactly 0. -/
theorem prepayment_clamped (P a : ℚ) (n : ℤ) (pp : Prepayments) (hpp : ∀ m, 0 ≤ pp m) :
    ∀ row ∈ generateAmortizationSchedule P a n pp,
      row.prepayment ≤ pp row.month ∧
        (row.openingBalance - row.principal < pp row.month →
          row.closingBalance = 0 ∧
            row.prepayment = row.openingBalance - row.principal) := by
  intro row hrow
  by_cases hg : P ≤ 0 ∨ n ≤ 0
  · rw [(degenerate_inputs_give_empty P a n pp hg).2] at hrow
    simp at hrow
  · push_neg at hg
    rw [generate_eq_go P a n pp hg.1 hg.2] at hrow
    obtain ⟨k, b, hb, hle, rfl⟩ := mem_go _ _ pp hpp _ _ _ row hrow
    have hb0 : (0 : ℚ) ≤ b := by linarith
    rw [makeRow_month, makeRow_openingBalance]
    exact ⟨makeRow_prepayment_le _ _ _ _ _ (hpp k),
      fun hgt => makeRow_clamp _ _ k b (pp k) hb0 hgt⟩

theorem prepayment_clamped_witness :
    rowClamp.prepayment ≤ ppClamp rowClamp.month ∧
      (rowClamp.openingBalance - rowClamp.principal < ppClamp rowClamp.month →
        rowClamp.closingBalance = 0 ∧
          rowClamp.prepayment = rowClamp.openingBalance - rowClamp.principal) :=
  prepayment_clamped 1000 0 4 ppClamp
    (by intro m; unfold ppClamp; split_ifs <;> norm_num) rowClamp
    (by rw [schedule_clamp_eval]; exact List.mem_cons_self _ _)

/-- C5: in every generated schedule, the closing balance recorded in row `i`
equals the opening balance recorded in row `i+1`, for every pair of
consecutive rows. -/
theorem consecutive_rows_link (P a : ℚ) (n : ℤ) (pp : Prepayments) :
    ∀ (i : ℕ) (h : i + 1 < (generateAmortizationSchedule P a n pp).length),
      ((generateAmortizationSchedule P a n pp).get ⟨i, by omega⟩).closingBalance =
        ((generateAmortizationSchedule P a n pp).get ⟨i + 1, h⟩).openingBalance := by
  intro i h
  have hch : List.Chain' (fun x y => x.closingBalance = y.openingBalance)
      (generateAmortizationSchedule P a n pp) := by
    by_cases hg : P ≤ 0 ∨ n ≤ 0
    · rw [(degenerate_inputs_give_empty P a n pp hg).2]
      simp
    · push_neg at hg
      rw [generate_eq_go P a n pp hg.1 hg.2]
      exact go_chain _ _ pp _ _ _
  exact List.chain'_iff_get.mp hch i (by omega)

theorem consecutive_rows_link_witness :
    ((generateAmortizationSchedule 1000 0 4 noPrepayments).get
        ⟨0, by simp [schedule_1000_eval]⟩).closingBalance =
      ((generateAmortizationSchedule 1000 0 4 noPrepayments).get
        ⟨0 + 1, by simp [schedule_1000_eval]⟩).openingBalance := by
  have hlen : 0 + 1 < (generateAmortizationSchedule 1000 0 4 noPrepayments).length := by
    simp [schedule_1000_eval]
  exact consecutive_rows_link 1000 0 4 noPrepayments 0 hlen

/-! ### The baseline installment dominates the interest -/

/-- The baseline EMI strictly exceeds the interest on any balance not above
the principal: `P · monthlyRate < calculateEMI P a n` for positive `P`, `n`. -/
theorem rate_mul_lt_calculateEMI (P a : ℚ) (n : ℤ) (hP : 0 < P) (hn : 0 < n) :
    P * (if a > 0 then a / 12 / 100 else 0) < calculateEMI P a n := by
  have hguard : ¬(P ≤ 0 ∨ n ≤ 0) := by push_neg; exact ⟨hP, hn⟩
  by_cases ha : a > 0
  · rw [if_pos ha]
    unfold calculateEMI
    rw [if_neg hguard, if_neg (not_le.mpr ha)]
    have hr0 : 0 < a / 12 / 100 := by positivity
    have hN : ((1 : ℚ) + a / 12 / 100) ^ n = (1 + a / 12 / 100) ^ n.toNat := by
      rw [← zpow_natCast]
      congr 1
      omega
    simp only [hN]
    set X := (1 + a / 12 / 100) ^ n.toNat with hX
    have hx : 1 < X := one_lt_pow₀ (by linarith) (by omega)
    have hden : 0 < X - 1 := by linarith
    rw [mul_div_assoc]
    have hq : 1 < X / (X - 1) := (one_lt_div hden).mpr (by linarith)
    calc P * (a / 12 / 100) = P * (a / 12 / 100) * 1 := (mul_one _).symm
      _ < P * (a / 12 / 100) * (X / (X - 1)) :=
          mul_lt_mul_of_pos_left hq (mul_pos hP hr0)
  · rw [if_neg ha, mul_zero]
    unfold calculateEMI
    rw [if_neg hguard, if_pos (not_lt.mp ha)]
    exact div_pos hP (by exact_mod_cast hn)

/-- C10: for positive principal and tenure, non-negative rate, and a
prepayment map with non-negative values, every emitted row has interest
strictly below the baseline EMI (so the negative-principal clamp never fires)
and records a strictly positive principal portion. -/
theorem principal_positive (P a : ℚ) (n : ℤ) (pp : Prepayments)
    (hP : 0 < P) (ha : 0 ≤ a) (hn : 0 < n) (hpp : ∀ m, 0 ≤ pp m) :
    ∀ row ∈ generateAmortizationSchedule P a n pp,
      row.interest < calculateEMI P a n ∧ 0 < row.principal := by
  intro row hrow
  rw [generate_eq_go P a n pp hP hn] at hrow
  obtain ⟨k, b, hb, hle, rfl⟩ := mem_go _ _ pp hpp _ _ _ row hrow
  have hb0 : (0 : ℚ) < b := by linarith
  have hr0 : 0 ≤ (if a > 0 then a / 12 / 100 else 0) := monthlyRate_nonneg a
  have hint : b * (if a > 0 then a / 12 / 100 else 0) ≤
      P * (if a > 0 then a / 12 / 100 else 0) :=
    mul_le_mul_of_nonneg_right hle hr0
  have hkey := rate_mul_lt_calculateEMI P a n hP hn
  have hlt : b * (if a > 0 then a / 12 / 100 else 0) < calculateEMI P a n :=
    lt_of_le_of_lt hint hkey
  constructor
  · rw [makeRow_interest, max_eq_right (mul_nonneg hb0.le hr0)]
    exact hlt
  · rw [makeRow_principal]
    unfold sPrincipal
    have h1 : 0 < calculateEMI P a n -
        b * (if a > 0 then a / 12 / 100 else 0) := by linarith
    rw [max_eq_right (le_min h1.le hb0.le)]
    exact lt_min h1 hb0

theorem principal_positive_witness :
    row1000.interest < calculateEMI 1000 0 4 ∧ 0 < row1000.principal :=
  principal_positive 1000 0 4 noPrepayments (by norm_num) le_rfl (by norm_num)
    (fun _ => le_rfl) row1000
    (by rw [schedule_1000_eval]; exact List.mem_cons_self _ _)

/-- C2 fails as stated: a positive principal not exceeding the 0.01 epsilon
produces an empty schedule, not `tenureMonths` rows.  Here
`principal = 1/200`, rate 0, tenure 2 yields 0 rows. -/
theorem schedule_not_always_full_length :
    (generateAmortizationSchedule (1 / 200) 0 2 noPrepayments).length ≠ 2 := by
  norm_num [generateAmortizationSchedule, go]

/-! ### The balance after the loop -/

theorem finalClosing_eq_getLast (l : List AmortizationData) :
    ∀ (d : ℚ) (h : l ≠ []), finalClosing l d = (l.getLast h).closingBalance := by
  induction l with
  | nil => intro d h; exact absurd rfl h
  | cons r rest ih =>
    intro d h
    cases rest with
    | nil => simp [finalClosing, List.getLast]
    | cons s t =>
      rw [List.getLast_cons (by simp)]
      exact ih r.closingBalance (by simp)

theorem go_stop (emi r : ℚ) (pp : Prepayments) (fuel m : ℕ) (bal : ℚ)
    (h : ¬ bal > 1 / 100) : go emi r pp fuel m bal = [] := by
  cases fuel with
  | zero => simp [go]
  | succ f =>
    simp only [go]
    rw [if_neg h]

theorem ideal_mono (emi r : ℚ) (hr : 0 ≤ r) :
    ∀ (k : ℕ) (b c : ℚ), b ≤ c → ideal emi r k b ≤ ideal emi r k c := by
  intro k
  induction k with
  | zero => intro b c h; exact h
  | succ j ih =>
    intro b c h
    refine ih _ _ ?_
    have := mul_le_mul_of_nonneg_left h (by linarith : (0 : ℚ) ≤ 1 + r)
    linarith

theorem ideal_zero_rate (emi : ℚ) : ∀ (k : ℕ) (b : ℚ), ideal emi 0 k b = b - k * emi := by
  intro k
  induction k with
  | zero => intro b; simp [ideal]
  | succ j ih =>
    intro b
    simp only [ideal]
    rw [ih]
    push_cast
    ring

theorem ideal_formula (emi r : ℚ) (hr : r ≠ 0) :
    ∀ (k : ℕ) (b : ℚ),
      ideal emi r k b = (1 + r) ^ k * b - emi * (((1 + r) ^ k - 1) / r) := by
  intro k
  induction k with
  | zero => intro b; simp [ideal]
  | succ j ih =>
    intro b
    simp only [ideal]
    rw [ih]
    field_simp
    ring

/-- At the baseline EMI the exact recurrence pays the loan to 0 in exactly
`tenureInMonths` months. -/
theorem ideal_calculateEMI_eq_zero (P a : ℚ) (n : ℤ) (hP : 0 < P) (hn : 0 < n) :
    ideal (calculateEMI P a n) (if a > 0 then a / 12 / 100 else 0) n.toNat P = 0 := by
  have hguard : ¬(P ≤ 0 ∨ n ≤ 0) := by push_neg; exact ⟨hP, hn⟩
  by_cases ha : a > 0
  · rw [if_pos ha]
    have hr0 : 0 < a / 12 / 100 := by positivity
    rw [ideal_formula _ _ (ne_of_gt hr0)]
    unfold calculateEMI
    rw [if_neg hguard, if_neg (not_le.mpr ha)]
    have hN : ((1 : ℚ) + a / 12 / 100) ^ (n : ℤ) = (1 + a / 12 / 100) ^ n.toNat := by
      rw [← zpow_natCast]
      congr 1
      omega
    simp only [hN]
    set X := (1 + a / 12 / 100) ^ n.toNat with hXdef
    have hx : 1 < X := one_lt_pow₀ (by linarith) (by omega)
    have hden : X - 1 ≠ 0 := sub_ne_zero.mpr (ne_of_gt hx)
    have hrne : a / 12 / 100 ≠ 0 := ne_of_gt hr0
    field_simp
    ring
  · rw [if_neg ha]
    rw [ideal_zero_rate]
    unfold calculateEMI
    rw [if_neg hguard, if_pos (not_lt.mp ha)]
    have hnq : (0 : ℚ) < (n : ℚ) := by exact_mod_cast hn
    have hcast : ((n.toNat : ℚ)) = (n : ℚ) := by
      have := Int.toNat_of_nonneg hn.le
      exact_mod_cast congrArg (fun z : ℤ => (z : ℚ)) this
    rw [hcast]
    field_simp

/-- Main balance bound: when the baseline EMI strictly dominates the largest
possible interest charge, the balance left when the loop exits is either
already within the 0.01 epsilon or bounded by the exact annuity recurrence. -/
theorem go_finalClosing (emi r : ℚ) (hr : 0 ≤ r) (Pcap : ℚ)
    (hemi : Pcap * r < emi) (pp : Prepayments) (hp : ∀ m, 0 ≤ pp m) :
    ∀ fuel m bal, 0 ≤ bal → bal ≤ Pcap →
      0 ≤ finalClosing (go emi r pp fuel m bal) bal ∧
        (finalClosing (go emi r pp fuel m bal) bal ≤ 1 / 100 ∨
          finalClosing (go emi r pp fuel m bal) bal ≤ ideal emi r fuel bal) := by
  intro fuel
  induction fuel with
  | zero =>
    intro m bal h0 hcap
    simp only [go, finalClosing]
    exact ⟨h0, Or.inr le_rfl⟩
  | succ f ih =>
    intro m bal h0 hcap
    simp only [go]
    split_ifs with hc
    · simp only [finalClosing]
      have hcl0 : 0 ≤ (makeRow emi r m bal (pp m)).closingBalance :=
        makeRow_closing_nonneg _ _ _ _ _
      have hcle : (makeRow emi r m bal (pp m)).closingBalance ≤ bal :=
        makeRow_closing_le _ _ _ _ _ h0 (hp m)
      have hint : bal * r < emi :=
        lt_of_le_of_lt (mul_le_mul_of_nonneg_right hcap hr) hemi
      have hrec := ih (m + 1) (makeRow emi r m bal (pp m)).closingBalance hcl0
        (le_trans hcle hcap)
      refine ⟨hrec.1, ?_⟩
      by_cases hsmall : (makeRow emi r m bal (pp m)).closingBalance ≤ 1 / 100
      · left
        rw [go_stop emi r pp f (m + 1) _ (not_lt.mpr hsmall)]
        simpa [finalClosing] using hsmall
      · rcases hrec.2 with h1 | h1
        · exact Or.inl h1
        · right
          have hclo := makeRow_closingBalance emi r m bal (pp m)
          have htc : 1 / 100 < tentClosing emi r bal (pp m) := by
            by_contra hno
            push_neg at hno
            rcases le_or_lt (tentClosing emi r bal (pp m)) 0 with h2 | h2
            · rw [hclo, max_eq_left h2] at hsmall
              norm_num at hsmall
            · rw [hclo, max_eq_right h2.le] at hsmall
              exact hsmall hno
          have hsp : sPrincipal emi r bal = emi - bal * r := by
            unfold sPrincipal
            rcases le_or_lt (emi - bal * r) bal with h2 | h2
            · rw [min_eq_left h2]
              exact max_eq_right (by linarith)
            · exfalso
              have h3 : tentClosing emi r bal (pp m) ≤ 0 := by
                unfold tentClosing sPrincipal
                rw [min_eq_right h2.le, max_eq_right h0]
                have := hp m
                linarith
              linarith
          have htc2 : 1 / 100 < bal - (emi - bal * r) - pp m := by
            have := htc
            unfold tentClosing at this
            rw [hsp] at this
            exact this
          have hstep : (makeRow emi r m bal (pp m)).closingBalance ≤
              (1 + r) * bal - emi := by
            rw [hclo]
            unfold tentClosing
            rw [hsp]
            have hppm := hp m
            refine max_le (by nlinarith) (by nlinarith)
          refine le_trans h1 ?_
          have := ideal_mono emi r hr f _ _ hstep
          simpa [ideal] using this
    · simp only [finalClosing]
      exact ⟨h0, Or.inl (not_lt.mp hc)⟩

/-- For any admissible inputs the balance left when the schedule ends is
between 0 and the 0.01 epsilon. -/
theorem schedule_final_bounds (P a : ℚ) (n : ℤ) (pp : Prepayments)
    (hP : 0 < P) (hn : 0 < n) (hpp : ∀ m, 0 ≤ pp m) :
    0 ≤ finalClosing (generateAmortizationSchedule P a n pp) P ∧
      finalClosing (generateAmortizationSchedule P a n pp) P ≤ 1 / 100 := by
  rw [generate_eq_go P a n pp hP hn]
  have hmain := go_finalClosing (calculateEMI P a n) _ (monthlyRate_nonneg a) P
    (rate_mul_lt_calculateEMI P a n hP hn) pp hpp n.toNat 1 P hP.le le_rfl
  have hideal := ideal_calculateEMI_eq_zero P a n hP hn
  refine ⟨hmain.1, ?_⟩
  rcases hmain.2 with h1 | h1
  · exact h1
  · rw [hideal] at h1
    linarith

/-! ### Telescoping the principal column -/

theorem go_sum (emi r : ℚ) (pp : Prepayments) (hp : ∀ m, 0 ≤ pp m) :
    ∀ fuel m bal, 0 ≤ bal →
      ((go emi r pp fuel m bal).map (fun row => row.principal + row.prepayment)).sum =
        bal - finalClosing (go emi r pp fuel m bal) bal := by
  intro fuel
  induction fuel with
  | zero => intro m bal h0; simp [go, finalClosing]
  | succ f ih =>
    intro m bal h0
    simp only [go]
    split_ifs with hc
    · simp only [List.map_cons, List.sum_cons, finalClosing]
      rw [ih (m + 1) _ (makeRow_closing_nonneg emi r m bal (pp m))]
      have hid := makeRow_identity emi r m bal (pp m) h0 (hp m)
      linarith
    · simp [finalClosing]

/-- C2 (amended): for positive principal, non-negative rate and positive
tenure, the no-prepayment schedule has at most `tenureMonths` rows, and when
it is non-empty the closing balance of its last row is within the 0.01
epsilon of 0. -/
theorem schedule_length_le_and_payoff (P a : ℚ) (n : ℤ)
    (hP : 0 < P) (ha : 0 ≤ a) (hn : 0 < n) :
    (generateAmortizationSchedule P a n noPrepayments).length ≤ n.toNat ∧
      ∀ h : generateAmortizationSchedule P a n noPrepayments ≠ [],
        0 ≤ ((generateAmortizationSchedule P a n noPrepayments).getLast h).closingBalance ∧
          ((generateAmortizationSchedule P a n noPrepayments).getLast h).closingBalance ≤
            1 / 100 := by
  have hbounds := schedule_final_bounds P a n noPrepayments hP hn (fun _ => le_rfl)
  constructor
  · rw [generate_eq_go P a n noPrepayments hP hn]
    exact go_length_le _ _ _ _ _ _
  · intro h
    rw [finalClosing_eq_getLast _ P h] at hbounds
    exact hbounds

theorem schedule_length_le_and_payoff_witness :
    (generateAmortizationSchedule 1000 0 4 noPrepayments).length ≤ (4 : ℤ).toNat ∧
      ∀ h : generateAmortizationSchedule 1000 0 4 noPrepayments ≠ [],
        0 ≤ ((generateAmortizationSchedule 1000 0 4 noPrepayments).getLast h).closingBalance ∧
          ((generateAmortizationSchedule 1000 0 4 noPrepayments).getLast h).closingBalance ≤
            1 / 100 :=
  schedule_length_le_and_payoff 1000 0 4 (by norm_num) le_rfl (by norm_num)

/-- C7: for positive principal, non-negative rate, positive tenure and a
prepayment map with non-negative values, the schedule's total recorded
principal plus prepayment equals the original principal to within the 0.01
epsilon. -/
theorem total_principal_recovers (P a : ℚ) (n : ℤ) (pp : Prepayments)
    (hP : 0 < P) (ha : 0 ≤ a) (hn : 0 < n) (hpp : ∀ m, 0 ≤ pp m) :
    |((generateAmortizationSchedule P a n pp).map
        (fun row => row.principal + row.prepayment)).sum - P| ≤ 1 / 100 := by
  have hbounds := schedule_final_bounds P a n pp hP hn hpp
  rw [generate_eq_go P a n pp hP hn] at hbounds ⊢
  rw [go_sum _ _ pp hpp n.toNat 1 P hP.le]
  rw [abs_le]
  constructor <;> linarith [hbounds.1, hbounds.2]

theorem total_principal_recovers_witness :
    |((generateAmortizationSchedule 1000 0 4 ppClamp).map
        (fun row => row.principal + row.prepayment)).sum - 1000| ≤ 1 / 100 :=
  total_principal_recovers 1000 0 4 ppClamp (by norm_num) le_rfl (by norm_num)
    (by intro m; unfold ppClamp; split_ifs <;> norm_num)

/-! ### Prepayments never lengthen the schedule -/

theorem sub_sPrincipal_mono (emi r : ℚ) (hr : 0 ≤ r) (b c : ℚ) (hbc : b ≤ c) :
    b - sPrincipal emi r b ≤ c - sPrincipal emi r c := by
  unfold sPrincipal
  have hmul : b * r ≤ c * r := mul_le_mul_of_nonneg_right hbc hr
  simp only [max_def, min_def]
  split_ifs <;> linarith

theorem makeRow_closing_mono (emi r : ℚ) (hr : 0 ≤ r) (m : ℕ) (b c p : ℚ)
    (hbc : b ≤ c) (hp : 0 ≤ p) :
    (makeRow emi r m b p).closingBalance ≤ (makeRow emi r m c 0).closingBalance := by
  rw [makeRow_closingBalance, makeRow_closingBalance]
  unfold tentClosing
  have h1 := sub_sPrincipal_mono emi r hr b c hbc
  exact max_le_max le_rfl (by linarith)

theorem go_length_mono (emi r : ℚ) (hr : 0 ≤ r) (pp : Prepayments) (hp : ∀ m, 0 ≤ pp m) :
    ∀ fuel m b c, 0 ≤ b → b ≤ c →
      (go emi r pp fuel m b).length ≤ (go emi r noPrepayments fuel m c).length := by
  intro fuel
  induction fuel with
  | zero => intro m b c h0 hbc; simp [go]
  | succ f ih =>
    intro m b c h0 hbc
    simp only [go]
    by_cases hb : b > 1 / 100
    · rw [if_pos hb, if_pos (by linarith : c > 1 / 100)]
      simp only [List.length_cons]
      refine Nat.succ_le_succ
        (ih (m + 1) _ _ (makeRow_closing_nonneg emi r m b (pp m)) ?_)
      have hmono := makeRow_closing_mono emi r hr m b c (pp m) hbc (hp m)
      simpa [noPrepayments] using hmono
    · rw [if_neg hb]
      simp

/-- C6: for any principal, rate and tenure, a prepayment map with
non-negative values produces a schedule no longer than the schedule for the
same inputs with the empty prepayment map. -/
theorem prepayments_never_lengthen (P a : ℚ) (n : ℤ) (pp : Prepayments)
    (hpp : ∀ m, 0 ≤ pp m) :
    (generateAmortizationSchedule P a n pp).length ≤
      (generateAmortizationSchedule P a n noPrepayments).length := by
  by_cases hg : P ≤ 0 ∨ n ≤ 0
  · rw [(degenerate_inputs_give_empty P a n pp hg).2,
      (degenerate_inputs_give_empty P a n noPrepayments hg).2]
  · push_neg at hg
    rw [generate_eq_go P a n pp hg.1 hg.2, generate_eq_go P a n noPrepayments hg.1 hg.2]
    exact go_length_mono _ _ (monthlyRate_nonneg a) pp hpp n.toNat 1 P P hg.1.le le_rfl

theorem prepayments_never_lengthen_witness :
    (generateAmortizationSchedule 1000 0 4 ppClamp).length ≤
      (generateAmortizationSchedule 1000 0 4 noPrepayments).length :=
  prepayments_never_lengthen 1000 0 4 ppClamp
    (by intro m; unfold ppClamp; split_ifs <;> norm_num)
